import Mathlib

/-!
Verification of the string-truncation utilities in `src/util.rs` of the
`zeroclaw` repository.

Strings are modelled as `List Char` (sequences of Unicode scalar values).
The display-width oracle of the `unicode-width` crate is an external
collaborator; following the spec's external-interface contract it is an
arbitrary function `w : Char → Nat`, and a string's width is the sum of its
per-scalar-value widths.  Byte-level slicing is modelled by `byteTake`,
which fails (returns `none`, the model of a Rust panic) when the requested
offset is not a character boundary.
-/

/-- Rust `char::is_whitespace`: the Unicode White_Space property,
used by `str::trim_end`. -/
def isRustWhitespace (c : Char) : Bool :=
  (0x09 ≤ c.toNat && c.toNat ≤ 0x0D) || c.toNat == 0x20 || c.toNat == 0x85 ||
    c.toNat == 0xA0 || c.toNat == 0x1680 ||
    (0x2000 ≤ c.toNat && c.toNat ≤ 0x200A) || c.toNat == 0x2028 ||
    c.toNat == 0x2029 || c.toNat == 0x202F || c.toNat == 0x205F ||
    c.toNat == 0x3000

/-- Rust `str::trim_end`: remove the longest run of trailing whitespace
characters. -/
def trimEnd (s : List Char) : List Char :=
  (s.reverse.dropWhile isRustWhitespace).reverse

/-- Embedding of `truncate_with_ellipsis` (src/util.rs lines 37-46).
`s.char_indices().nth(max_chars)` is `Some` exactly when `s` has more than
`max_chars` characters, and its byte index cuts off the first `max_chars`
characters; that prefix is right-trimmed and `...` is appended.  Otherwise
the string is returned unchanged. -/
def truncate_with_ellipsis (s : List Char) (max_chars : Nat) : List Char :=
  if max_chars < s.length then
    trimEnd (s.take max_chars) ++ ['.', '.', '.']
  else
    s

/-- Display width of a string under the width oracle `w`: the sum of the
per-scalar-value widths, per the spec's external-interface contract for
`UnicodeWidthStr::width`. -/
def strWidth (w : Char → Nat) (s : List Char) : Nat :=
  (s.map w).sum

/-- The scan loop of `truncate_with_width` (used both at lines 111-119 for
the ellipsis and at lines 139-149 for the text): starting from accumulated
width `acc`, keep characters while `acc + width(c) ≤ avail`, stopping at the
first character that would overflow. -/
def widthScan (w : Char → Nat) (avail : Nat) : Nat → List Char → List Char
  | _, [] => []
  | acc, c :: cs =>
    if avail < acc + w c then [] else c :: widthScan w avail (acc + w c) cs

/-- Embedding of lines 129-155 of `truncate_with_width`: compute
`available_width = max_width.saturating_sub(width(eff))`, scan the text, and
return the effective ellipsis alone when nothing was kept (`truncate_at == 0`),
else the right-trimmed kept prefix followed by the effective ellipsis. -/
def truncCore (w : Char → Nat) (s : List Char) (max_width : Nat)
    (eff : List Char) : List Char :=
  if widthScan w (max_width - strWidth w eff) 0 s = [] then eff
  else trimEnd (widthScan w (max_width - strWidth w eff) 0 s) ++ eff

/-- Embedding of `truncate_with_width` (src/util.rs lines 89-156):
return `""` when `max_width == 0`; return `s` unchanged when its width fits;
otherwise shorten the ellipsis first when `width(ellipsis) ≥ max_width`
(returning `""` when not even one ellipsis character fits), then fit the text
into the remaining budget via `truncCore`. -/
def truncate_with_width (w : Char → Nat) (s : List Char) (max_width : Nat)
    (ellipsis : List Char) : List Char :=
  if max_width = 0 then []
  else if strWidth w s ≤ max_width then s
  else if max_width ≤ strWidth w ellipsis then
    if widthScan w max_width 0 ellipsis = [] then []
    else truncCore w s max_width (widthScan w max_width 0 ellipsis)
  else truncCore w s max_width ellipsis

/-- The effective ellipsis of the spec's step 3: the caller's ellipsis when it
is narrower than the budget, otherwise the scanned-down ellipsis. -/
def effectiveEllipsis (w : Char → Nat) (max_width : Nat)
    (ellipsis : List Char) : List Char :=
  if max_width ≤ strWidth w ellipsis then widthScan w max_width 0 ellipsis
  else ellipsis

/-- The spec's step 4: `available = max_width - width(effective_ellipsis)`,
floored at 0 (Nat subtraction). -/
def availWidth (w : Char → Nat) (max_width : Nat) (ellipsis : List Char) : Nat :=
  max_width - strWidth w (effectiveEllipsis w max_width ellipsis)

/-- The spec's step 5: the retained prefix of the text under the remaining
budget. -/
def keptPre (w : Char → Nat) (s : List Char) (max_width : Nat)
    (ellipsis : List Char) : List Char :=
  widthScan w (availWidth w max_width ellipsis) 0 s

/-- Modelled from the spec: a sample instance of the external display-width
oracle (the `unicode-width` crate is not part of this repository's sources).
East-Asian wide characters of the CJK Unified Ideographs block get width 2,
combining marks width 0, everything else width 1 — consistent with the spec's
East-Asian-width description on every character used in the examples below. -/
def sampleWidth (c : Char) : Nat :=
  if 0x300 ≤ c.toNat ∧ c.toNat ≤ 0x36F then 0
  else if 0x4E00 ≤ c.toNat ∧ c.toNat ≤ 0x9FFF then 2
  else 1

/-- UTF-8 byte length of a character sequence. -/
def utf8Len (s : List Char) : Nat :=
  (s.map Char.utf8Size).sum

/-- Byte-level slicing model of Rust's `&s[..n]`: succeeds with the character
prefix exactly when `n` is a character boundary, and fails (the model of a
panic) when `n` falls strictly inside a character's UTF-8 encoding or past the
end of the string. -/
def byteTake : List Char → Nat → Option (List Char)
  | _, 0 => some []
  | [], _ + 1 => none
  | c :: cs, n + 1 =>
    if c.utf8Size ≤ n + 1 then (byteTake cs (n + 1 - c.utf8Size)).map (c :: ·)
    else none

/-- The `truncate_at` byte offset maintained by the text loop of
`truncate_with_width` (lines 136-149): `idx + c.len_utf8()` after the last
kept character, 0 when nothing was kept. -/
def truncAt (w : Char → Nat) (avail : Nat) : Nat → List Char → Nat
  | _, [] => 0
  | acc, c :: cs =>
    if avail < acc + w c then 0 else c.utf8Size + truncAt w avail (acc + w c) cs

/- ### Basic lemmas -/

theorem strWidth_nil (w : Char → Nat) : strWidth w [] = 0 := rfl

theorem strWidth_append (w : Char → Nat) (a b : List Char) :
    strWidth w (a ++ b) = strWidth w a + strWidth w b := by
  simp [strWidth]

theorem trimEnd_append_eq (s : List Char) :
    trimEnd s ++ (s.reverse.takeWhile isRustWhitespace).reverse = s := by
  rw [trimEnd, ← List.reverse_append, List.takeWhile_append_dropWhile,
    List.reverse_reverse]

theorem trimEnd_length_le (s : List Char) : (trimEnd s).length ≤ s.length := by
  conv_rhs => rw [← trimEnd_append_eq s]
  simp

theorem strWidth_trimEnd_le (w : Char → Nat) (s : List Char) :
    strWidth w (trimEnd s) ≤ strWidth w s := by
  conv_rhs => rw [← trimEnd_append_eq s]
  rw [strWidth_append]
  exact Nat.le_add_right _ _

theorem dropWhile_dropWhile_eq (p : Char → Bool) :
    ∀ l : List Char, (l.dropWhile p).dropWhile p = l.dropWhile p
  | [] => rfl
  | c :: t => by
    by_cases h : p c
    · rw [List.dropWhile_cons_of_pos h]
      exact dropWhile_dropWhile_eq p t
    · rw [List.dropWhile_cons_of_neg h, List.dropWhile_cons_of_neg h]

theorem trimEnd_trimEnd (s : List Char) : trimEnd (trimEnd s) = trimEnd s := by
  unfold trimEnd
  rw [List.reverse_reverse, dropWhile_dropWhile_eq]

theorem widthScan_width_le (w : Char → Nat) (avail : Nat) :
    ∀ (s : List Char) (acc : Nat), acc ≤ avail →
      acc + strWidth w (widthScan w avail acc s) ≤ avail
  | [], acc, h => by simpa [widthScan, strWidth] using h
  | c :: cs, acc, h => by
    rw [widthScan]
    split
    · simpa [strWidth] using h
    · rename_i hle
      have hacc : acc + w c ≤ avail := Nat.le_of_not_lt hle
      have ih := widthScan_width_le w avail cs (acc + w c) hacc
      simp only [strWidth, List.map_cons, List.sum_cons] at ih ⊢
      omega

theorem widthScan_take (w : Char → Nat) (avail : Nat) :
    ∀ (s : List Char) (acc : Nat),
      widthScan w avail acc s = s.take (widthScan w avail acc s).length
  | [], acc => by simp [widthScan]
  | c :: cs, acc => by
    rw [widthScan]
    split
    · simp
    · have ih := widthScan_take w avail cs (acc + w c)
      simp only [List.length_cons, List.take_succ_cons]
      exact congrArg (c :: ·) ih

theorem widthScan_length_le (w : Char → Nat) (avail : Nat) (s : List Char)
    (acc : Nat) : (widthScan w avail acc s).length ≤ s.length := by
  conv_lhs => rw [widthScan_take w avail s acc]
  simp

theorem widthScan_max (w : Char → Nat) (avail : Nat) :
    ∀ (s : List Char) (acc k : Nat), k ≤ s.length →
      acc + strWidth w (s.take k) ≤ avail →
      k ≤ (widthScan w avail acc s).length
  | _, _, 0, _, _ => Nat.zero_le _
  | [], _, k + 1, hk, _ => absurd hk (by simp)
  | c :: cs, acc, k + 1, hk, hw => by
    rw [widthScan]
    have hw' : acc + (w c + strWidth w (cs.take k)) ≤ avail := by
      simpa [strWidth] using hw
    split
    · omega
    · have ih := widthScan_max w avail cs (acc + w c) k
        (by simpa using hk) (by omega)
      simpa using ih

theorem truncate_with_ellipsis_of_le (s : List Char) (m : Nat)
    (h : s.length ≤ m) : truncate_with_ellipsis s m = s := by
  rw [truncate_with_ellipsis, if_neg (by omega)]

theorem truncCore_width_le (w : Char → Nat) (s : List Char) (mw : Nat)
    (eff : List Char) (h : strWidth w eff ≤ mw) :
    strWidth w (truncCore w s mw eff) ≤ mw := by
  rw [truncCore]
  split
  · exact h
  · rw [strWidth_append]
    have h1 := strWidth_trimEnd_le w (widthScan w (mw - strWidth w eff) 0 s)
    have h2 := widthScan_width_le w (mw - strWidth w eff) s 0 (Nat.zero_le _)
    omega

theorem truncate_with_width_width_le (w : Char → Nat) (s : List Char)
    (mw : Nat) (e : List Char) :
    strWidth w (truncate_with_width w s mw e) ≤ mw := by
  rw [truncate_with_width]
  split
  · simp [strWidth]
  split
  · assumption
  split
  · split
    · simp [strWidth]
    · refine truncCore_width_le w s mw _ ?_
      have := widthScan_width_le w mw e 0 (Nat.zero_le _)
      omega
  · refine truncCore_width_le w s mw e ?_
    omega

theorem truncate_with_width_of_le (w : Char → Nat) (s : List Char) (mw : Nat)
    (e : List Char) (h0 : mw ≠ 0) (h : strWidth w s ≤ mw) :
    truncate_with_width w s mw e = s := by
  rw [truncate_with_width, if_neg h0, if_pos h]

theorem truncate_with_width_zero (w : Char → Nat) (s e : List Char) :
    truncate_with_width w s 0 e = [] := by
  rw [truncate_with_width, if_pos rfl]

theorem truncate_with_width_idem (w : Char → Nat) (s : List Char) (mw : Nat)
    (e : List Char) :
    truncate_with_width w (truncate_with_width w s mw e) mw e =
      truncate_with_width w s mw e := by
  by_cases h0 : mw = 0
  · subst h0
    rw [truncate_with_width_zero, truncate_with_width_zero]
  · exact truncate_with_width_of_le w _ mw e h0
      (truncate_with_width_width_le w s mw e)

/- ### Byte-boundary lemmas -/

theorem byteTake_utf8Len_take :
    ∀ (s : List Char) (k : Nat), byteTake s (utf8Len (s.take k)) = some (s.take k)
  | s, 0 => by simp [utf8Len, byteTake]
  | [], k + 1 => by simp [utf8Len, byteTake]
  | c :: cs, k + 1 => by
    have hpos := Char.utf8Size_pos c
    have hlen : utf8Len ((c :: cs).take (k + 1)) =
        c.utf8Size + utf8Len (cs.take k) := by
      simp [utf8Len]
    rw [hlen]
    have hstep : c.utf8Size + utf8Len (cs.take k) =
        (c.utf8Size + utf8Len (cs.take k) - 1) + 1 := by omega
    rw [hstep, byteTake]
    rw [if_pos (by omega)]
    have harg : c.utf8Size + utf8Len (cs.take k) - 1 + 1 - c.utf8Size =
        utf8Len (cs.take k) := by omega
    rw [harg, byteTake_utf8Len_take cs k]
    simp

theorem truncAt_eq_utf8Len (w : Char → Nat) (avail : Nat) :
    ∀ (s : List Char) (acc : Nat),
      truncAt w avail acc s = utf8Len (widthScan w avail acc s)
  | [], acc => by simp [truncAt, widthScan, utf8Len]
  | c :: cs, acc => by
    rw [truncAt, widthScan]
    split
    · simp [utf8Len]
    · rw [truncAt_eq_utf8Len w avail cs (acc + w c)]
      simp [utf8Len]


/- ### Claim theorems -/

/-- C1: for every width oracle, every text, every max_width and every
ellipsis, the rendered width (sum of per-scalar-value widths under the
oracle) of the string returned by truncate_with_width is at most max_width. -/
theorem c1_width_bound (w : Char → Nat) (s : List Char) (max_width : Nat)
    (ellipsis : List Char) :
    strWidth w (truncate_with_width w s max_width ellipsis) ≤ max_width :=
  truncate_with_width_width_le w s max_width ellipsis

/-- C2: when the text has more than max_chars scalar values,
truncate_with_ellipsis returns the prefix of exactly max_chars scalar values
with trailing whitespace stripped, followed by the literal "..."; for
non-empty text and max_chars = 0 the result is "..." alone; and on the
unchanged-return path the input comes back exactly, with no stripping. -/
theorem c2_count_truncation (s : List Char) (m : Nat) :
    (m < s.length → (s.take m).length = m ∧
      truncate_with_ellipsis s m = trimEnd (s.take m) ++ ['.', '.', '.']) ∧
    (s ≠ [] → truncate_with_ellipsis s 0 = ['.', '.', '.']) ∧
    (s.length ≤ m → truncate_with_ellipsis s m = s) := by
  refine ⟨fun h => ⟨?_, ?_⟩, fun h => ?_, truncate_with_ellipsis_of_le s m⟩
  · simp
    omega
  · rw [truncate_with_ellipsis, if_pos h]
  · have hpos : 0 < s.length := List.length_pos.mpr h
    rw [truncate_with_ellipsis, if_pos hpos]
    simp [trimEnd]

/-- Witness for C2 at the concrete input "hi x" with max_chars = 2. -/
theorem c2_count_truncation_witness :
    2 < (['h', 'i', ' ', 'x'] : List Char).length ∧
    truncate_with_ellipsis ['h', 'i', ' ', 'x'] 2 =
      trimEnd (['h', 'i', ' ', 'x'].take 2) ++ ['.', '.', '.'] :=
  ⟨by decide, ((c2_count_truncation ['h', 'i', ' ', 'x'] 2).1 (by decide)).2⟩

/-- C7: for every non-empty text and every ellipsis, truncate_with_width with
max_width = 0 returns the empty string (the code returns before any width
computation). -/
theorem c7_zero_budget (w : Char → Nat) (s e : List Char) (_h : s ≠ []) :
    truncate_with_width w s 0 e = [] :=
  truncate_with_width_zero w s e

/-- Witness for C7 at the concrete input "a" with ellipsis ".". -/
theorem c7_zero_budget_witness :
    (['a'] : List Char) ≠ [] ∧ truncate_with_width sampleWidth ['a'] 0 ['.'] = [] :=
  ⟨by decide, c7_zero_budget sampleWidth ['a'] ['.'] (by decide)⟩

/-- C10: for every text and every max_chars, the string returned by
truncate_with_ellipsis contains at most max_chars + 3 scalar values. -/
theorem c10_count_length_bound (s : List Char) (m : Nat) :
    (truncate_with_ellipsis s m).length ≤ m + 3 := by
  rw [truncate_with_ellipsis]
  split
  · have h1 := trimEnd_length_le (s.take m)
    have h2 : (s.take m).length ≤ m := by simp
    simp only [List.length_append, List.length_cons, List.length_nil]
    omega
  · omega

/-- C9: both truncation functions are total Lean functions (structural
recursions, hence terminating on every input), and their output sizes are
linearly bounded: the count-truncated result has at most 3 characters more
than the input, and the width-truncated result never exceeds the combined
length of the text and the ellipsis. -/
theorem c9_totality (w : Char → Nat) (s e : List Char) (m mw : Nat) :
    (truncate_with_ellipsis s m).length ≤ s.length + 3 ∧
    (truncate_with_width w s mw e).length ≤ s.length + e.length := by
  constructor
  · rw [truncate_with_ellipsis]
    split
    · have h1 := trimEnd_length_le (s.take m)
      have h2 : (s.take m).length ≤ s.length := by simp
      simp only [List.length_append, List.length_cons, List.length_nil]
      omega
    · omega
  · have heff : ∀ eff : List Char, eff.length ≤ e.length →
        (truncCore w s mw eff).length ≤ s.length + e.length := by
      intro eff he
      rw [truncCore]
      split
      · omega
      · have h1 := trimEnd_length_le (widthScan w (mw - strWidth w eff) 0 s)
        have h2 := widthScan_length_le w (mw - strWidth w eff) s 0
        simp only [List.length_append]
        omega
    rw [truncate_with_width]
    split
    · simp
    split
    · omega
    split
    · split
      · simp
      · exact heff _ (widthScan_length_le w mw e 0)
    · exact heff e (Nat.le_refl _)

/-- C8: no byte slice in either function is ever taken at a non-boundary
position: the byte offset of any character prefix (the count function's cut
at `char_indices().nth`) and the `truncate_at` offset maintained by the width
function's scan loop are both character boundaries, so the byte-level slice
succeeds and returns exactly the corresponding sequence of complete scalar
values. -/
theorem c8_boundary_safety (s : List Char) (m : Nat) (w : Char → Nat)
    (avail : Nat) :
    byteTake s (utf8Len (s.take m)) = some (s.take m) ∧
    byteTake s (truncAt w avail 0 s) = some (widthScan w avail 0 s) := by
  refine ⟨byteTake_utf8Len_take s m, ?_⟩
  rw [truncAt_eq_utf8Len]
  have h := byteTake_utf8Len_take s (widthScan w avail 0 s).length
  rwa [← widthScan_take w avail s 0] at h

/-- C3: when truncation is required and the ellipsis is at least as wide as
the budget, the effective ellipsis is the longest prefix of the ellipsis's
scalar values whose accumulated width does not exceed max_width; when no
ellipsis character fits at all the function returns the empty string, and
otherwise the result ends in the effective ellipsis. -/
theorem c3_ellipsis_shortening (w : Char → Nat) (s e : List Char) (mw : Nat)
    (h0 : 0 < mw) (hs : mw < strWidth w s) (he : mw ≤ strWidth w e) :
    effectiveEllipsis w mw e = e.take (effectiveEllipsis w mw e).length ∧
    strWidth w (effectiveEllipsis w mw e) ≤ mw ∧
    (∀ k, k ≤ e.length → strWidth w (e.take k) ≤ mw →
      k ≤ (effectiveEllipsis w mw e).length) ∧
    (effectiveEllipsis w mw e = [] → truncate_with_width w s mw e = []) ∧
    (effectiveEllipsis w mw e ≠ [] →
      ∃ p, truncate_with_width w s mw e = p ++ effectiveEllipsis w mw e) := by
  have hee : effectiveEllipsis w mw e = widthScan w mw 0 e := by
    rw [effectiveEllipsis, if_pos he]
  refine ⟨?_, ?_, ?_, ?_, ?_⟩
  · rw [hee]
    exact widthScan_take w mw e 0
  · rw [hee]
    have h := widthScan_width_le w mw e 0 (Nat.zero_le _)
    omega
  · intro k hk hkw
    rw [hee]
    exact widthScan_max w mw e 0 k hk (by simpa using hkw)
  · intro hnil
    have hscan : widthScan w mw 0 e = [] := hee.symm.trans hnil
    rw [truncate_with_width, if_neg (by omega), if_neg (by omega), if_pos he,
      if_pos hscan]
  · intro hne
    have hscan : widthScan w mw 0 e ≠ [] := by
      rw [← hee]
      exact hne
    rw [truncate_with_width, if_neg (by omega), if_neg (by omega), if_pos he,
      if_neg hscan, truncCore]
    split
    · exact ⟨[], by rw [hee, List.nil_append]⟩
    · exact ⟨trimEnd (widthScan w (mw - strWidth w (widthScan w mw 0 e)) 0 s),
        by rw [hee]⟩

/-- Witness for C3 at the spec's example: "你好世界" with max_width 1 and
ellipsis "...", whose effective ellipsis is "." and whose result is ".". -/
theorem c3_ellipsis_shortening_witness :
    0 < 1 ∧ 1 < strWidth sampleWidth ("你好世界".toList) ∧
    1 ≤ strWidth sampleWidth ("...".toList) ∧
    strWidth sampleWidth (effectiveEllipsis sampleWidth 1 ("...".toList)) ≤ 1 ∧
    truncate_with_width sampleWidth ("你好世界".toList) 1 ("...".toList) = ['.'] :=
  ⟨by decide, by decide, by decide,
    (c3_ellipsis_shortening sampleWidth ("你好世界".toList) ("...".toList) 1
      (by decide) (by decide) (by decide)).2.1,
    by decide⟩

/-- Counterexample to C4 as stated: on text "abc" (width 3), max_width 1 and
ellipsis "你" (width 2), truncation is required and the retained prefix under
available = 1 - width(effective_ellipsis) = 1 is nonempty ("a"), so the claim
predicts trimEnd("a") ++ effective_ellipsis = "a"; but the code returns the
empty string, because the ellipsis-shortening step produced an empty effective
ellipsis and returned early. -/
theorem c4_counterexample :
    0 < 1 ∧ 1 < strWidth sampleWidth ['a', 'b', 'c'] ∧
    keptPre sampleWidth ['a', 'b', 'c'] 1 ['你'] ≠ [] ∧
    truncate_with_width sampleWidth ['a', 'b', 'c'] 1 ['你'] = [] ∧
    truncate_with_width sampleWidth ['a', 'b', 'c'] 1 ['你'] ≠
      trimEnd (keptPre sampleWidth ['a', 'b', 'c'] 1 ['你']) ++
        effectiveEllipsis sampleWidth 1 ['你'] := by
  decide

/-- C4 amended: when truncation is required and the ellipsis-shortening
branch did not produce an empty effective ellipsis (it is nonempty, or the
original ellipsis is narrower than the budget), the retained prefix is the
longest prefix of the text's scalar values whose accumulated width is at most
available = max_width - width(effective_ellipsis); if no character is
retained the result is the effective ellipsis alone, otherwise the retained
prefix with trailing whitespace trimmed followed by the effective ellipsis. -/
theorem c4_retained_prefix_amended (w : Char → Nat) (s e : List Char)
    (mw : Nat) (h0 : 0 < mw) (hs : mw < strWidth w s)
    (hco : strWidth w e < mw ∨ effectiveEllipsis w mw e ≠ []) :
    keptPre w s mw e = s.take (keptPre w s mw e).length ∧
    strWidth w (keptPre w s mw e) ≤ availWidth w mw e ∧
    (∀ k, k ≤ s.length → strWidth w (s.take k) ≤ availWidth w mw e →
      k ≤ (keptPre w s mw e).length) ∧
    truncate_with_width w s mw e =
      (if keptPre w s mw e = [] then effectiveEllipsis w mw e
       else trimEnd (keptPre w s mw e) ++ effectiveEllipsis w mw e) := by
  refine ⟨widthScan_take w (availWidth w mw e) s 0, ?_, ?_, ?_⟩
  · have h := widthScan_width_le w (availWidth w mw e) s 0 (Nat.zero_le _)
    rw [keptPre]
    omega
  · intro k hk hkw
    rw [keptPre]
    exact widthScan_max w (availWidth w mw e) s 0 k hk (by simpa using hkw)
  · by_cases hew : mw ≤ strWidth w e
    · have hee : effectiveEllipsis w mw e = widthScan w mw 0 e := by
        rw [effectiveEllipsis, if_pos hew]
      have hscan : widthScan w mw 0 e ≠ [] := by
        rw [← hee]
        rcases hco with hlt | hne
        · omega
        · exact hne
      rw [truncate_with_width, if_neg (by omega), if_neg (by omega),
        if_pos hew, if_neg hscan, truncCore, keptPre, availWidth, hee]
    · have hee : effectiveEllipsis w mw e = e := by
        rw [effectiveEllipsis, if_neg hew]
      rw [truncate_with_width, if_neg (by omega), if_neg (by omega),
        if_neg hew, truncCore, keptPre, availWidth, hee]

/-- Witness for the amended C4 at the concrete input "hello world" with
max_width 8 and ellipsis "...", whose retained prefix is "hello". -/
theorem c4_retained_prefix_amended_witness :
    0 < 8 ∧ 8 < strWidth sampleWidth ("hello world".toList) ∧
    strWidth sampleWidth ("...".toList) < 8 ∧
    truncate_with_width sampleWidth ("hello world".toList) 8 ("...".toList) =
      (if keptPre sampleWidth ("hello world".toList) 8 ("...".toList) = []
       then effectiveEllipsis sampleWidth 8 ("...".toList)
       else trimEnd (keptPre sampleWidth ("hello world".toList) 8 ("...".toList)) ++
         effectiveEllipsis sampleWidth 8 ("...".toList)) ∧
    truncate_with_width sampleWidth ("hello world".toList) 8 ("...".toList) =
      "hello...".toList :=
  ⟨by decide, by decide, by decide,
    (c4_retained_prefix_amended sampleWidth ("hello world".toList)
      ("...".toList) 8 (by decide) (by decide) (Or.inl (by decide))).2.2.2,
    by decide⟩

/-- Counterexample to C5 as stated: the text consisting of the single
combining mark U+0301 has rendered width 0 ≤ 0 = max_width, yet
truncate_with_width with max_width = 0 returns the empty string, not the
input unchanged (the max_width == 0 early return fires before the width
check). -/
theorem c5_counterexample :
    strWidth sampleWidth [Char.ofNat 0x301] ≤ 0 ∧
    truncate_with_width sampleWidth [Char.ofNat 0x301] 0 ['.'] ≠
      [Char.ofNat 0x301] := by
  decide

/-- C5 amended: truncate_with_ellipsis returns the input unchanged whenever
count(text) ≤ max_chars; truncate_with_width returns the input unchanged
whenever width(text) ≤ max_width, provided additionally that max_width > 0 or
the text is empty (at max_width = 0 the function returns the empty string
even when the text has width 0). -/
theorem c5_noop_amended :
    (∀ (s : List Char) (m : Nat), s.length ≤ m →
      truncate_with_ellipsis s m = s) ∧
    (∀ (w : Char → Nat) (s : List Char) (mw : Nat) (e : List Char),
      strWidth w s ≤ mw → (0 < mw ∨ s = []) →
      truncate_with_width w s mw e = s) := by
  refine ⟨truncate_with_ellipsis_of_le, ?_⟩
  intro w s mw e h hc
  rcases hc with h0 | hnil
  · exact truncate_with_width_of_le w s mw e (by omega) h
  · subst hnil
    by_cases h0 : mw = 0
    · subst h0
      exact truncate_with_width_zero w [] e
    · exact truncate_with_width_of_le w [] mw e h0 h

/-- Witness for the amended C5 at the concrete inputs "hi" with max_chars 5
and "hi" with max_width 5 and ellipsis "...". -/
theorem c5_noop_amended_witness :
    (['h', 'i'] : List Char).length ≤ 5 ∧
    truncate_with_ellipsis ['h', 'i'] 5 = ['h', 'i'] ∧
    strWidth sampleWidth ['h', 'i'] ≤ 5 ∧
    truncate_with_width sampleWidth ['h', 'i'] 5 ['.', '.', '.'] = ['h', 'i'] :=
  ⟨by decide, c5_noop_amended.1 ['h', 'i'] 5 (by decide), by decide,
    c5_noop_amended.2 sampleWidth ['h', 'i'] 5 ['.', '.', '.'] (by decide)
      (Or.inl (by decide))⟩

/-- Counterexample to C6 as stated: truncate_with_ellipsis is not idempotent.
On "ab cd" with max_chars 3 the first application strips the trailing space
("ab cd" → "ab..."), and the second application truncates "ab..." again to
"ab....". -/
theorem c6_counterexample :
    truncate_with_ellipsis (truncate_with_ellipsis ['a', 'b', ' ', 'c', 'd'] 3) 3 ≠
      truncate_with_ellipsis ['a', 'b', ' ', 'c', 'd'] 3 := by
  decide

/-- C6 amended: truncate_with_width is idempotent for every oracle, text,
budget and ellipsis; truncate_with_ellipsis is idempotent except when
trailing-whitespace stripping shortens the truncated prefix to a length
strictly between max_chars - 3 and max_chars — i.e. it is idempotent whenever
no truncation occurs, or the trimmed prefix keeps its full max_chars length,
or its length is at most max_chars - 3. -/
theorem c6_idem_amended :
    (∀ (w : Char → Nat) (s : List Char) (mw : Nat) (e : List Char),
      truncate_with_width w (truncate_with_width w s mw e) mw e =
        truncate_with_width w s mw e) ∧
    (∀ (s : List Char) (m : Nat),
      s.length ≤ m ∨ (trimEnd (s.take m)).length + 3 ≤ m ∨
        (trimEnd (s.take m)).length = m →
      truncate_with_ellipsis (truncate_with_ellipsis s m) m =
        truncate_with_ellipsis s m) := by
  refine ⟨truncate_with_width_idem, ?_⟩
  intro s m hc
  by_cases hm : m < s.length
  · have ht : truncate_with_ellipsis s m =
        trimEnd (s.take m) ++ ['.', '.', '.'] := by
      rw [truncate_with_ellipsis, if_pos hm]
    rcases hc with h1 | h2 | h3
    · omega
    · rw [ht]
      exact truncate_with_ellipsis_of_le _ m
        (by simpa only [List.length_append, List.length_cons,
          List.length_nil] using h2)
    · rw [ht, truncate_with_ellipsis,
        if_pos (show m < (trimEnd (s.take m) ++ ['.', '.', '.']).length by
          simp only [List.length_append, List.length_cons, List.length_nil]
          omega),
        List.take_left' h3, trimEnd_trimEnd]
  · rw [truncate_with_ellipsis_of_le s m (by omega),
      truncate_with_ellipsis_of_le s m (by omega)]

/-- Witness for the amended C6 at the concrete input "abcd" with
max_chars 3 (no whitespace stripped, trimmed prefix keeps length 3). -/
theorem c6_idem_amended_witness :
    ((['a', 'b', 'c', 'd'] : List Char).length ≤ 3 ∨
      (trimEnd ((['a', 'b', 'c', 'd'] : List Char).take 3)).length + 3 ≤ 3 ∨
      (trimEnd ((['a', 'b', 'c', 'd'] : List Char).take 3)).length = 3) ∧
    truncate_with_ellipsis (truncate_with_ellipsis ['a', 'b', 'c', 'd'] 3) 3 =
      truncate_with_ellipsis ['a', 'b', 'c', 'd'] 3 :=
  ⟨by decide, c6_idem_amended.2 ['a', 'b', 'c', 'd'] 3 (by decide)⟩
